import Mathlib

/-!
Verification of the code-flattener scan–filter–aggregate pipeline.

The definitions below are a shallow embedding of the Python sources
`src/utils/filesystem.py`, `src/utils/directory.py`, `src/filters/exclude.py`,
`src/filters/include.py`, `src/extraction.py` and `src/main.py`.

Modelling conventions:
 * A directory tree is a value of the mutual inductive `FSEntry`/`FSList`.
   A file carries the data the code observes about it: its name, the raw
   bytes seen by the binary sniff (`open(..., 'rb').read(1024)` reads a
   prefix of them), the text `content` a successful
   `open(..., 'r', encoding='utf-8', errors='ignore')` read returns, the
   `os.path.getsize` result, and three failure flags: `classifyFails`
   (the classification-time open in `is_text_file` raises), `readFails`
   (the content-read open in `read_file_content` raises, with message
   `errMsg`), and `sizeFails` (the `os.path.getsize` call raises because
   the file vanished after it was read-attempted; the scanner makes this
   call with no enclosing `try`, so it aborts the walk).  A directory
   whose `os.listdir` raises `PermissionError` is `FSEntry.denied`.
 * Paths are joined with `/`; `os.path.relpath(os.path.join(base, rel), base)`
   is `rel`, so the filter functions receive the root-relative path directly.
 * Python library functions used by the code (`fnmatch.fnmatchcase`,
   `str.splitlines`, `sorted`, `os.walk`) are embedded with their CPython
   semantics, as the code relies on them.
-/

/-- One scanned file as the code observes it (see module comment). -/
structure FileNode where
  name : String
  bytes : List Nat
  content : String
  size : Nat
  errMsg : String
  classifyFails : Bool
  readFails : Bool
  sizeFails : Bool
deriving DecidableEq

/-- The scan configuration threaded through `scan_directory`
(`exclude_patterns`, `include_patterns`, `verbose`, `ignore_hidden`).
`verbose` only controls logging in the source and is carried but unused. -/
structure ScanConfig where
  excludePatterns : List String
  includePatterns : List String
  verbose : Bool
  ignoreHidden : Bool

/-- The per-file dict built in `scan_directory`
(`{"path": ..., "content": ..., "size": ..., "lines": ...}`). -/
structure FileInfo where
  path : String
  content : String
  size : Nat
  lines : Nat
deriving DecidableEq

mutual
/-- A directory entry: a file, a readable directory with its listing
(in `os.listdir` order), or a directory whose listing raises
`PermissionError`. -/
inductive FSEntry where
  | file : FileNode → FSEntry
  | dir : String → FSList → FSEntry
  | denied : String → FSEntry

/-- A directory listing (kept as a bespoke list so that all functions on
trees are structurally recursive). -/
inductive FSList where
  | nil : FSList
  | cons : FSEntry → FSList → FSList
end

def FSList.toList : FSList → List FSEntry
  | .nil => []
  | .cons e r => e :: FSList.toList r

/-- Build an `FSList` from a plain list (used for concrete examples). -/
def fsOf : List FSEntry → FSList
  | [] => .nil
  | e :: r => .cons e (fsOf r)

/-- The entry's name as `os.listdir` reports it. -/
def FSEntry.name : FSEntry → String
  | .file f => f.name
  | .dir n _ => n
  | .denied n => n

/-! ## Glob matching: `fnmatch.fnmatchcase`

CPython's `fnmatchcase` translates the pattern to a regex:
`*` matches any sequence of characters (including `/` and newlines),
`?` any single character, `[...]` a character class (leading `!` negates,
`a-b` is a code-point range, a `[` with no closing `]` is a literal `[`,
and the closing bracket is searched with the `!`/`]` skips of
`fnmatch.translate`).  Matching is case-sensitive and anchored at both ends.
`fnmatchFuel` is that matcher; the `fuel` argument only forces termination
and is always called with fuel `> pattern length + string length`, which
makes the fuel-0 branch unreachable. -/

/-- Scan for the closing `]` of a character class, as `fnmatch.translate`
does (`[` was consumed; a leading `!` and a leading `]` are part of the
class body).  Returns the class body and the remainder of the pattern,
or `none` when there is no closing `]` (literal `[`). -/
def scanClass (p : List Char) : Option (List Char × List Char) :=
  let (skip, r0) : List Char × List Char :=
    match p with
    | '!' :: ']' :: r => (['!', ']'], r)
    | '!' :: r => (['!'], r)
    | ']' :: r => ([']'], r)
    | r => ([], r)
  match r0.span (fun c => c ≠ ']') with
  | (body, ']' :: rem) => some (skip ++ body, rem)
  | _ => none

/-- Does `c` match the (non-negated) body of a character class?
`a-b` is a code-point range; other characters are literals. -/
def classItems (c : Char) : List Char → Bool
  | a :: '-' :: b :: rest => (a.val ≤ c.val && c.val ≤ b.val) || classItems c rest
  | a :: rest => (c = a) || classItems c rest
  | [] => false

/-- Does `c` match a class body, honouring a leading `!` negation? -/
def classMatch (c : Char) (stuff : List Char) : Bool :=
  match stuff with
  | '!' :: rest => !(classItems c rest)
  | _ => classItems c stuff

/-- Glob matching on character lists; the fuel only forces termination
(every call site supplies more fuel than `pat.length + s.length`). -/
def fnmatchFuel : Nat → List Char → List Char → Bool
  | 0, _, _ => false
  | _ + 1, [], s => s.isEmpty
  | fuel + 1, '*' :: p, s =>
      fnmatchFuel fuel p s ||
        (match s with
         | [] => false
         | _ :: s' => fnmatchFuel fuel ('*' :: p) s')
  | fuel + 1, '?' :: p, s =>
      (match s with
       | [] => false
       | _ :: s' => fnmatchFuel fuel p s')
  | fuel + 1, '[' :: p, s =>
      (match scanClass p with
       | some (stuff, rest) =>
           (match s with
            | c :: s' => classMatch c stuff && fnmatchFuel fuel rest s'
            | [] => false)
       | none =>
           (match s with
            | c :: s' => (c = '[') && fnmatchFuel fuel p s'
            | [] => false))
  | fuel + 1, a :: p, s =>
      (match s with
       | c :: s' => (c = a) && fnmatchFuel fuel p s'
       | [] => false)

/-- `fnmatch.fnmatchcase(name, pat)`. -/
def fnmatchcase (name pat : String) : Bool :=
  fnmatchFuel (pat.length + name.length + 1) pat.data name.data

/-! ## `str.splitlines` line counting

`len(content.splitlines())` counts segments delimited by any Python line
boundary: `\n`, `\r`, `\r\n` (one boundary), `\x0b`, `\x0c`,
`\x1c`–`\x1e`, `\x85`, `U+2028`, `U+2029`; a trailing boundary does not
open a new segment.  Equivalently it is the number of boundaries plus one
when the text is nonempty and does not end in a boundary. -/

/-- The characters `str.splitlines` treats as line boundaries. -/
def isLineBreak (c : Char) : Bool :=
  c = '\n' || c = '\r' || c = '\x0b' || c = '\x0c' ||
  c = '\x1c' || c = '\x1d' || c = '\x1e' || c = '\x85' ||
  c = '\u2028' || c = '\u2029'

/-- Number of line boundaries, with `\r\n` counting as a single boundary
(a `\r` is always a boundary and absorbs one following `\n`). -/
def countLineBoundaries : List Char → Nat
  | [] => 0
  | c :: rest =>
      if c = '\r' then
        match rest with
        | '\n' :: rest' => 1 + countLineBoundaries rest'
        | other => 1 + countLineBoundaries other
      else (if isLineBreak c then 1 else 0) + countLineBoundaries rest

def endsWithLineBreak (cs : List Char) : Bool :=
  match cs.getLast? with
  | some c => isLineBreak c
  | none => false

/-- `len(cs.splitlines())` for the character list `cs`. -/
def splitlinesLenChars (cs : List Char) : Nat :=
  countLineBoundaries cs +
    (if cs = [] then 0 else if endsWithLineBreak cs then 0 else 1)

/-- `len(s.splitlines())`. -/
def pySplitlinesLen (s : String) : Nat :=
  splitlinesLenChars s.data

/-! ## `src/utils/filesystem.py` -/

/-- `is_text_file`: sniff the first 1024 bytes; a failing open or a null
byte in the sample means "not text". -/
def is_text_file (f : FileNode) : Bool :=
  if f.classifyFails then false
  else !((f.bytes.take 1024).contains 0)

/-- `read_file_content`: the decoded content, or the error placeholder
`f"Error reading file {file_path}: {str(e)}"` when the open raises. -/
def read_file_content (filePath : String) (f : FileNode) : String :=
  if f.readFails then "Error reading file " ++ filePath ++ ": " ++ f.errMsg
  else f.content

/-! ## `src/filters/exclude.py` and `src/filters/include.py`

Both receive the absolute path and the base path and match the
root-relative path `os.path.relpath(path, base)`; the embedding passes
that relative path directly. -/

/-- `should_exclude`: true when the relative path matches any exclude
pattern. -/
def should_exclude (relPath : String) (patterns : List String) : Bool :=
  patterns.any (fun pat => fnmatchcase relPath pat)

/-- `should_include`: true unconditionally when there are no include
patterns, otherwise true when the relative path matches any of them. -/
def should_include (relPath : String) (patterns : List String) : Bool :=
  match patterns with
  | [] => true
  | _ => patterns.any (fun pat => fnmatchcase relPath pat)

/-! ## `scan_directory` (`src/utils/directory.py`)

`os.walk(path)` is a top-down walk: it yields the root's listing first,
then recursively each non-pruned subdirectory in listing order; a
directory whose listing fails is silently skipped (`onerror=None`), so a
`denied` directory contributes nothing.  The loop body prunes hidden
directories when `ignore_hidden`, prunes excluded directories, filters
hidden files when `ignore_hidden`, and keeps a file when it is not
excluded, is included, and classifies as text. -/

/-- Python `name.startswith('.')` (the byte-level `String.startsWith`
does not reduce in the kernel, so this is stated on the characters). -/
def startsWithDot (s : String) : Bool :=
  match s.data with
  | [] => false
  | c :: _ => c = '.'

/-- `os.path.join(rel, name)` for a root-relative `rel` (empty at the
scan root). -/
def joinRel (rel name : String) : String :=
  if rel = "" then name else rel ++ "/" ++ name

/-- The plain files of a listing, in listing order (`os.walk` separates
`files` from `dirs`). -/
def FSList.files : FSList → List FileNode
  | .nil => []
  | .cons (.file f) r => f :: FSList.files r
  | .cons _ r => FSList.files r

/-- The `files` list after the hidden-file filter
(`files = [f for f in files if not f.startswith('.')]` when
`ignore_hidden`). -/
def visibleFiles (cfg : ScanConfig) (l : FSList) : List FileNode :=
  if cfg.ignoreHidden then l.files.filter (fun f => !startsWithDot f.name)
  else l.files

/-- The per-file acceptance test of the walk loop:
`not exclude_fn(file_path) and should_include(...) and is_text_file(...)`. -/
def acceptFile (cfg : ScanConfig) (rel : String) (f : FileNode) : Bool :=
  !should_exclude (joinRel rel f.name) cfg.excludePatterns
  && should_include (joinRel rel f.name) cfg.includePatterns
  && is_text_file f

/-- The `file_info` dict built for an accepted file whose containing
directory sits at root-relative path `rel` under the scan root `base`,
assuming its `os.path.getsize` call succeeds (`mkFileInfoExc` below is
the faithful fallible constructor; this is its success case). -/
def mkFileInfo (base rel : String) (f : FileNode) : FileInfo :=
  let filePath := joinRel base (joinRel rel f.name)
  let content := read_file_content filePath f
  { path := joinRel rel f.name
    content := content
    size := f.size
    lines := pySplitlinesLen content }

/-- The records one `os.walk` iteration emits for the directory `l` at
root-relative path `rel`. -/
def recsOfDir (cfg : ScanConfig) (base rel : String) (l : FSList) : List FileInfo :=
  ((visibleFiles cfg l).filter (fun f => acceptFile cfg rel f)).map
    (fun f => mkFileInfo base rel f)

/-- Is subdirectory `n` of the directory at `rel` kept for descent?
(The hidden-directory prune, then the excluded-directory prune.) -/
def keepDir (cfg : ScanConfig) (rel : String) (n : String) : Bool :=
  !(cfg.ignoreHidden && startsWithDot n)
  && !should_exclude (joinRel rel n) cfg.excludePatterns

/-- The records of all subtrees rooted at the non-pruned subdirectories
of a listing (the rest of the `os.walk` traversal below one directory). -/
def walkDirs (cfg : ScanConfig) (base : String) : String → FSList → List FileInfo
  | _, .nil => []
  | rel, .cons (FSEntry.dir n es) rest =>
      (if keepDir cfg rel n then
         recsOfDir cfg base (joinRel rel n) es ++ walkDirs cfg base (joinRel rel n) es
       else []) ++ walkDirs cfg base rel rest
  | rel, .cons _ rest => walkDirs cfg base rel rest

/-- All records of the walk of the directory `l` at root-relative `rel`. -/
def scanAt (cfg : ScanConfig) (base rel : String) (l : FSList) : List FileInfo :=
  recsOfDir cfg base rel l ++ walkDirs cfg base rel l

/-- `scan_directory(path, exclude_patterns, include_patterns, verbose,
ignore_hidden)` over the root listing `root` of the directory `base`. -/
def scan_directory (base : String) (cfg : ScanConfig) (root : FSList) : List FileInfo :=
  scanAt cfg base "" root

/-! ## The scanner with its real error path

In both sources the per-file body is
`content = read_file_content(file_path)` followed by
`"size": os.path.getsize(file_path)` with no enclosing `try`
(`src/utils/directory.py` lines 75–79, `src/main.py` lines 170–174):
`read_file_content` never raises, but `os.path.getsize` raises
`FileNotFoundError` for a file that disappeared between discovery and
content-read, and that exception propagates out of `scan_directory`,
discarding all records collected so far.  The `Exc` functions below are
the same walk with that error path kept; `scan_directory` above is their
success case (exact agreement is proved in `scanExc_eq_scan`). -/

/-- `os.path.getsize(file_path)`: the reported size, or the raised
`FileNotFoundError` (surfaced as its message) when the file no longer
exists. -/
def os_path_getsize (filePath : String) (f : FileNode) : Except String Nat :=
  if f.sizeFails then
    Except.error ("[Errno 2] No such file or directory: " ++ filePath)
  else Except.ok f.size

/-- The `file_info` dict with the fallible `os.path.getsize` call kept:
the content read never raises, the size lookup may. -/
def mkFileInfoExc (base rel : String) (f : FileNode) : Except String FileInfo :=
  let filePath := joinRel base (joinRel rel f.name)
  let content := read_file_content filePath f
  match os_path_getsize filePath f with
  | Except.error e => Except.error e
  | Except.ok size =>
      Except.ok { path := joinRel rel f.name, content := content
                  size := size, lines := pySplitlinesLen content }

/-- Build the records of a run of accepted files in order, aborting at
the first `os.path.getsize` failure. -/
def collectExc (base rel : String) : List FileNode → Except String (List FileInfo)
  | [] => Except.ok []
  | f :: rest =>
      match mkFileInfoExc base rel f with
      | Except.error e => Except.error e
      | Except.ok info =>
          match collectExc base rel rest with
          | Except.error e => Except.error e
          | Except.ok infos => Except.ok (info :: infos)

/-- One `os.walk` iteration with the error path kept. -/
def recsOfDirExc (cfg : ScanConfig) (base rel : String) (l : FSList) : Except String (List FileInfo) :=
  collectExc base rel ((visibleFiles cfg l).filter (fun f => acceptFile cfg rel f))

/-- The walk below one directory with the error path kept, in `os.walk`
order: the first failing size lookup aborts everything. -/
def walkDirsExc (cfg : ScanConfig) (base : String) : String → FSList → Except String (List FileInfo)
  | _, .nil => Except.ok []
  | rel, .cons (FSEntry.dir n es) rest =>
      if keepDir cfg rel n then
        match recsOfDirExc cfg base (joinRel rel n) es with
        | Except.error e => Except.error e
        | Except.ok recs1 =>
            match walkDirsExc cfg base (joinRel rel n) es with
            | Except.error e => Except.error e
            | Except.ok recs2 =>
                match walkDirsExc cfg base rel rest with
                | Except.error e => Except.error e
                | Except.ok recs3 => Except.ok (recs1 ++ recs2 ++ recs3)
      else walkDirsExc cfg base rel rest
  | rel, .cons _ rest => walkDirsExc cfg base rel rest

/-- All records of the walk at `rel` with the error path kept. -/
def scanAtExc (cfg : ScanConfig) (base rel : String) (l : FSList) : Except String (List FileInfo) :=
  match recsOfDirExc cfg base rel l with
  | Except.error e => Except.error e
  | Except.ok recs1 =>
      match walkDirsExc cfg base rel l with
      | Except.error e => Except.error e
      | Except.ok recs2 => Except.ok (recs1 ++ recs2)

/-- `scan_directory` with the unprotected `os.path.getsize` kept: an
`Except.error` is the `FileNotFoundError` escaping the whole walk. -/
def scan_directory_exc (base : String) (cfg : ScanConfig) (root : FSList) : Except String (List FileInfo) :=
  scanAtExc cfg base "" root

/-- No file of the tree has a failing `os.path.getsize` (every accepted
file is still stat-able at record-build time). -/
def noSizeFails : FSList → Bool
  | .nil => true
  | .cons (FSEntry.file f) r => !f.sizeFails && noSizeFails r
  | .cons (FSEntry.dir _ es) r => noSizeFails es && noSizeFails r
  | .cons _ r => noSizeFails r

/-! ## Tree rendering (`build_directory_tree_lines`, `create_directory_tree`)

`entries = sorted(e for e in os.listdir(dir_path) if e != ".git")` sorts the
names lexicographically by code point (Python string `<`); `sorted` is
stable, so the stable insertion sort below produces the same list.  Each
entry gets a connector (`└── ` for the last entry, `├── ` otherwise) and a
directory entry is followed by its recursively rendered subtree with the
prefix extended by four spaces (last) or `│   ` (not last).  A directory
whose listing raises `PermissionError` renders as the single line
`prefix + "[Permission Denied]"`.  The `fuel` of `buildLinesF` only forces
termination; `build_directory_tree_lines` supplies `depth + 1`, which is
always enough. -/

/-- Python string `<` (lexicographic by code point) on character lists. -/
def charsLt : List Char → List Char → Bool
  | _, [] => false
  | [], _ :: _ => true
  | c :: cs, d :: ds => if c = d then charsLt cs ds else decide (c < d)

/-- Python `sep.join(parts)`. -/
def pyJoin (sep : String) : List String → String
  | [] => ""
  | [a] => a
  | a :: rest => a ++ sep ++ pyJoin sep rest

/-- Stable insertion of an entry into a name-sorted list (the entry goes
before the first element whose name is not strictly smaller). -/
def insertEntry (e : FSEntry) : List FSEntry → List FSEntry
  | [] => [e]
  | x :: xs =>
      if charsLt x.name.data e.name.data then x :: insertEntry e xs
      else e :: x :: xs

/-- Stable sort of entries by name: extensionally equal to Python's
`sorted` on the names. -/
def sortByName : List FSEntry → List FSEntry
  | [] => []
  | e :: rest => insertEntry e (sortByName rest)

/-- The subtree below one rendered entry, given the renderer `rec'` for
subdirectory listings: for a directory its recursively rendered listing
under the extended prefix, for a permission-denied directory the single
`[Permission Denied]` line (the recursive call enters it, `os.listdir`
raises, and the callee returns just this line), for a file nothing. -/
def subtreeLines (rec' : String → List FSEntry → List String)
    (newPre : String) : FSEntry → List String
  | FSEntry.dir _ es => rec' newPre es.toList
  | FSEntry.denied _ => [newPre ++ "[Permission Denied]"]
  | FSEntry.file _ => []

/-- The connector line of one entry followed by its subtree lines. -/
def renderEntryWith (rec' : String → List FSEntry → List String)
    (pre : String) (isLast : Bool) (e : FSEntry) : List String :=
  (pre ++ (if isLast then "└── " else "├── ") ++ e.name) ::
    subtreeLines rec' (pre ++ (if isLast then "    " else "│   ")) e

/-- Render one sorted listing: `for i, entry in enumerate(entries)` with
`i == len(entries) - 1` deciding the connector. -/
def renderLevel (rec' : String → List FSEntry → List String)
    (pre : String) (l : List FSEntry) : List String :=
  l.enum.flatMap (fun ie => renderEntryWith rec' pre (ie.1 = l.length - 1) ie.2)

/-- `build_directory_tree_lines(dir_path, prefix)` with explicit fuel:
sort the listing with `.git` removed, then render it. -/
def buildLinesF : Nat → String → List FSEntry → List String
  | 0, _, _ => []
  | fuel + 1, pre, entries =>
      renderLevel (buildLinesF fuel) pre
        (sortByName (entries.filter (fun e => e.name ≠ ".git")))

mutual
/-- Nesting depth of an entry (a file or denied directory is 1). -/
def FSEntry.depth : FSEntry → Nat
  | .dir _ es => 1 + FSList.depthList es
  | _ => 1

/-- Maximal nesting depth of the entries of a listing. -/
def FSList.depthList : FSList → Nat
  | .nil => 0
  | .cons e r => max (FSEntry.depth e) (FSList.depthList r)
end

/-- `build_directory_tree_lines(path)` on the root listing. -/
def build_directory_tree_lines (root : FSList) : List String :=
  buildLinesF (FSList.depthList root + 1) "" root.toList

/-- `create_directory_tree(path)`. -/
def create_directory_tree (root : FSList) : String :=
  "Directory structure:\n" ++ pyJoin "\n" (build_directory_tree_lines root)

/-! ## Aggregation (`create_file_content_string` in `src/main.py`;
`process_directory` in `src/extraction.py` builds the same string) -/

/-- `separator = "=" * 48 + "\n"`. -/
def sepLine : String := String.mk (List.replicate 48 '=') ++ "\n"

/-- One file section:
`f"{separator}File: {path} ({lines} lines, {size} bytes)\n{separator}{content}\n"`. -/
def fileSection (f : FileInfo) : String :=
  sepLine ++ "File: " ++ f.path ++ " (" ++ toString f.lines ++ " lines, "
    ++ toString f.size ++ " bytes)\n" ++ sepLine ++ f.content ++ "\n"

/-- `create_file_content_string(files, directory_tree)`:
the tree, a blank line, then the sections joined with `"\n"`. -/
def create_file_content_string (files : List FileInfo) (directoryTree : String) : String :=
  directoryTree ++ "\n\n" ++ pyJoin "\n" (files.map fileSection)

/-! ## Helpers for concrete instances -/

/-- A plain readable text file node (no null bytes, no failures). -/
def txtNode (n : String) (content : String) : FileNode :=
  { name := n, bytes := [], content := content, size := content.utf8ByteSize
    errMsg := "", classifyFails := false, readFails := false, sizeFails := false }

/-- A plain readable text file entry. -/
def txtFile (n : String) (content : String) : FSEntry :=
  FSEntry.file (txtNode n content)

/-- The default configuration: no patterns, not verbose, hidden entries
kept. -/
def cfg0 : ScanConfig :=
  { excludePatterns := [], includePatterns := [], verbose := false, ignoreHidden := false }

/-- A file whose binary sniff sees a null byte in the first kilobyte. -/
def binNode : FileNode :=
  { name := "blob.bin", bytes := [1, 0, 2], content := "", size := 3
    errMsg := "", classifyFails := false, readFails := false, sizeFails := false }

/-- A file that became unreadable — but still present — between discovery
and content-read: the text-mode open in `read_file_content` raises while
`os.path.getsize` still succeeds (e.g. permissions were dropped). -/
def goneNode : FileNode :=
  { name := "gone.txt", bytes := [], content := "", size := 5
    errMsg := "No such file", classifyFails := false, readFails := true, sizeFails := false }

/-- A file that disappeared after the classification open succeeded: the
content-read open raises, and so does the unprotected `os.path.getsize`
call that follows it. -/
def vanishedNode : FileNode :=
  { name := "lost.txt", bytes := [], content := "", size := 0
    errMsg := "No such file", classifyFails := false, readFails := true, sizeFails := true }

/-! ## Derivations of scan membership

`ScanHit cfg base rel l r` says: the walk of the listing `l` (sitting at
root-relative path `rel` under scan root `base`) emits the record `r` —
either as a visible, accepted file of this listing or inside a kept
(non-pruned) subdirectory.  It characterises `scanAt` membership exactly
(`mem_scanAt_iff` below). -/
inductive ScanHit (cfg : ScanConfig) (base : String) : String → FSList → FileInfo → Prop
  | file {rel : String} {l : FSList} {f : FileNode} :
      FSEntry.file f ∈ l.toList →
      (cfg.ignoreHidden = true → startsWithDot f.name = false) →
      acceptFile cfg rel f = true →
      ScanHit cfg base rel l (mkFileInfo base rel f)
  | dir {rel : String} {l : FSList} {n : String} {es : FSList} {r : FileInfo} :
      FSEntry.dir n es ∈ l.toList →
      keepDir cfg rel n = true →
      ScanHit cfg base (joinRel rel n) es r →
      ScanHit cfg base rel l r

mutual
/-- Every name in the tree is nonempty (true of any real `os.listdir`
output; used to read a record path back as its segments). -/
def FSEntry.wfNames : FSEntry → Bool
  | .file f => f.name ≠ ""
  | .dir n es => (n ≠ "") && FSList.wfNamesList es
  | .denied n => n ≠ ""

/-- All names of a listing's subtree are nonempty. -/
def FSList.wfNamesList : FSList → Bool
  | .nil => true
  | .cons e r => FSEntry.wfNames e && FSList.wfNamesList r
end

/-- Delete every file whose first-1024-byte sample contains a null byte
(the files the Text Classifier rejects as binary). -/
def pruneNullFiles : FSList → FSList
  | .nil => .nil
  | .cons (FSEntry.file f) r =>
      if (f.bytes.take 1024).contains 0 then pruneNullFiles r
      else .cons (FSEntry.file f) (pruneNullFiles r)
  | .cons (FSEntry.dir n es) r => .cons (FSEntry.dir n (pruneNullFiles es)) (pruneNullFiles r)
  | .cons e r => .cons e (pruneNullFiles r)

/-- Make the content-read of one file fail (the file became unreadable
between discovery and content-read). -/
def setReadFailsNode (f : FileNode) : FileNode :=
  { f with readFails := true }

/-- Make every content-read in the tree fail. -/
def setReadFailsAll : FSList → FSList
  | .nil => .nil
  | .cons (FSEntry.file f) r => .cons (FSEntry.file (setReadFailsNode f)) (setReadFailsAll r)
  | .cons (FSEntry.dir n es) r => .cons (FSEntry.dir n (setReadFailsAll es)) (setReadFailsAll r)
  | .cons e r => .cons e (setReadFailsAll r)

/-- Name order on entries: `a` need not come strictly before `b`
(`not (b.name < a.name)` in Python's code-point order). -/
def nameLe (a b : FSEntry) : Prop :=
  charsLt b.name.data a.name.data = false

/-! ## Spec-side definitions (stated from the claim wording, to be
compared with the code-side definitions above) -/

/-- Follows the claim's words for C4: the number of newline-delimited
segments — zero for empty content, and a final segment without a
trailing newline still counts. -/
def newlineSegmentsChars (cs : List Char) : Nat :=
  if cs = [] then 0
  else cs.count '\n' + (if cs.getLast? = some '\n' then 0 else 1)

/-- `newlineSegmentsChars` on a string. -/
def newlineSegments (s : String) : Nat :=
  newlineSegmentsChars s.data

/-- Follows the claim's words for C5: one section per record, each ending
with a trailing blank line, concatenated in order. -/
def claimSections : List FileInfo → String
  | [] => ""
  | f :: rest => (fileSection f ++ "\n") ++ claimSections rest

/-- Follows the claim's words for C5: the tree, a blank line, then the
sections. -/
def claimDumpText (files : List FileInfo) (tree : String) : String :=
  tree ++ "\n\n" ++ claimSections files

/-! ## Concrete trees and configurations used in instances -/

/-- A `.git` directory with a plain text file inside, next to nothing. -/
def fsGit : FSList :=
  fsOf [FSEntry.dir ".git" (fsOf [txtFile "config" "x"])]

/-- `.git` next to an ordinary file. -/
def fsGitAndFile : FSList :=
  fsOf [FSEntry.dir ".git" (fsOf [txtFile "config" "x"]), txtFile "a" ""]

/-- The C6 example listing `["b.txt", "a.txt", "Z"]`. -/
def fsZab : FSList :=
  fsOf [txtFile "b.txt" "", txtFile "a.txt" "", txtFile "Z" ""]

/-- A non-last directory with one file, next to a file. -/
def fsNested : FSList :=
  fsOf [FSEntry.dir "d" (fsOf [txtFile "x" "1"]), txtFile "e" "2"]

/-- A last directory with one file, after a file. -/
def fsNestedLast : FSList :=
  fsOf [txtFile "a" "", FSEntry.dir "d" (fsOf [txtFile "x" "1"])]

/-- A subdirectory holding a permission-denied directory and a readable
file, next to a top-level file. -/
def fsDenied : FSList :=
  fsOf [FSEntry.dir "sub" (fsOf [FSEntry.denied "locked", txtFile "ok.txt" "y\n"]),
        txtFile "top.md" "m"]

/-- An excluded directory whose inner file matches no exclude pattern. -/
def fsBuild : FSList :=
  fsOf [FSEntry.dir "build" (fsOf [txtFile "a.txt" "hi"])]

/-- `.md` files at depths one, two and three. -/
def fsDepths : FSList :=
  fsOf [txtFile "top.md" "",
        FSEntry.dir "d1" (fsOf [txtFile "a.md" "",
                                FSEntry.dir "d2" (fsOf [txtFile "b.md" ""])])]

/-! # Theorems

First the infrastructure: induction over `FSList`, membership inversion
for the scanner, and the exact characterisation of scan membership by
`ScanHit` derivations. -/

theorem FSList.recList {motive : FSList → Prop} (nil : motive FSList.nil)
    (cons : ∀ e r, motive r → motive (FSList.cons e r)) : ∀ l, motive l
  | .nil => nil
  | .cons e r => cons e r (FSList.recList nil cons r)

theorem mem_files_iff {f : FileNode} : ∀ {l : FSList}, f ∈ l.files ↔ FSEntry.file f ∈ l.toList := by
  intro l
  induction l using FSList.recList with
  | nil => simp [FSList.files, FSList.toList]
  | cons e r ih =>
    cases e with
    | file g => simp [FSList.files, FSList.toList, ih]
    | dir n es => simp [FSList.files, FSList.toList, ih]
    | denied n => simp [FSList.files, FSList.toList, ih]

theorem sizeOf_pos_fslist (l : FSList) : 1 ≤ sizeOf l := by
  cases l with
  | nil => simp
  | cons e r => simp; omega

theorem sizeOf_lt_of_mem_toList {e : FSEntry} : ∀ {l : FSList}, e ∈ l.toList → sizeOf e < sizeOf l := by
  intro l
  induction l using FSList.recList with
  | nil => simp [FSList.toList]
  | cons x r ih =>
    intro h
    rcases List.mem_cons.1 (by simpa [FSList.toList] using h) with rfl | h
    · simp; omega
    · have := ih h
      simp
      omega

theorem mem_visibleFiles_iff {cfg : ScanConfig} {l : FSList} {f : FileNode} :
    f ∈ visibleFiles cfg l ↔
      f ∈ l.files ∧ (cfg.ignoreHidden = true → startsWithDot f.name = false) := by
  unfold visibleFiles
  rcases hh : cfg.ignoreHidden with _ | _
  · simp [hh]
  · simp [hh, List.mem_filter]

theorem mem_recsOfDir_iff {cfg : ScanConfig} {base rel : String} {l : FSList} {r : FileInfo} :
    r ∈ recsOfDir cfg base rel l ↔
      ∃ f, FSEntry.file f ∈ l.toList
        ∧ (cfg.ignoreHidden = true → startsWithDot f.name = false)
        ∧ acceptFile cfg rel f = true
        ∧ r = mkFileInfo base rel f := by
  unfold recsOfDir
  rw [List.mem_map]
  constructor
  · rintro ⟨f, hf, rfl⟩
    obtain ⟨hv, ha⟩ := List.mem_filter.1 hf
    obtain ⟨hm, hh⟩ := mem_visibleFiles_iff.1 hv
    exact ⟨f, mem_files_iff.1 hm, hh, ha, rfl⟩
  · rintro ⟨f, hm, hh, ha, rfl⟩
    exact ⟨f, List.mem_filter.2 ⟨mem_visibleFiles_iff.2 ⟨mem_files_iff.2 hm, hh⟩, ha⟩, rfl⟩

theorem mem_walkDirs_iff {cfg : ScanConfig} {base : String} :
    ∀ {rel : String} {l : FSList} {r : FileInfo},
      r ∈ walkDirs cfg base rel l ↔
        ∃ n es, FSEntry.dir n es ∈ l.toList ∧ keepDir cfg rel n = true
          ∧ r ∈ scanAt cfg base (joinRel rel n) es := by
  intro rel l r
  induction l using FSList.recList with
  | nil => simp [walkDirs, FSList.toList]
  | cons e rest ih =>
    cases e with
    | file g =>
      rw [show walkDirs cfg base rel (FSList.cons (FSEntry.file g) rest) = walkDirs cfg base rel rest from rfl]
      rw [ih]
      simp [FSList.toList]
    | denied n =>
      rw [show walkDirs cfg base rel (FSList.cons (FSEntry.denied n) rest) = walkDirs cfg base rel rest from rfl]
      rw [ih]
      simp [FSList.toList]
    | dir n es =>
      rw [show walkDirs cfg base rel (FSList.cons (FSEntry.dir n es) rest)
            = (if keepDir cfg rel n then
                 recsOfDir cfg base (joinRel rel n) es ++ walkDirs cfg base (joinRel rel n) es
               else []) ++ walkDirs cfg base rel rest from rfl]
      rw [List.mem_append, ih]
      rcases hk : keepDir cfg rel n with _ | _
      · simp [FSList.toList]
        constructor
        · rintro ⟨m, es', hmem, hk', hr⟩
          exact ⟨m, es', Or.inr hmem, hk', hr⟩
        · rintro ⟨m, es', hmem, hk', hr⟩
          rcases hmem with ⟨rfl, rfl⟩ | hmem
          · rw [hk'] at hk; cases hk
          · exact ⟨m, es', hmem, hk', hr⟩
      · simp [FSList.toList, scanAt]
        constructor
        · rintro (hr | ⟨m, es', hmem, hk', hr⟩)
          · exact ⟨n, es, Or.inl ⟨rfl, rfl⟩, hk, by simpa [scanAt] using hr⟩
          · exact ⟨m, es', Or.inr hmem, hk', hr⟩
        · rintro ⟨m, es', hmem, hk', hr⟩
          rcases hmem with ⟨rfl, rfl⟩ | hmem
          · exact Or.inl (by simpa [scanAt] using hr)
          · exact Or.inr ⟨m, es', hmem, hk', hr⟩

theorem scanHit_mem {cfg : ScanConfig} {base : String} :
    ∀ {rel : String} {l : FSList} {r : FileInfo},
      ScanHit cfg base rel l r → r ∈ scanAt cfg base rel l := by
  intro rel l r h
  induction h with
  | file hf hh ha =>
      exact List.mem_append.2 (Or.inl (mem_recsOfDir_iff.2 ⟨_, hf, hh, ha, rfl⟩))
  | dir hd hk _ ih =>
      exact List.mem_append.2 (Or.inr (mem_walkDirs_iff.2 ⟨_, _, hd, hk, ih⟩))

theorem mem_scanHit_aux {cfg : ScanConfig} {base : String} :
    ∀ (N : Nat) (l : FSList), sizeOf l ≤ N →
      ∀ (rel : String) (r : FileInfo), r ∈ scanAt cfg base rel l → ScanHit cfg base rel l r := by
  intro N
  induction N with
  | zero => intro l hl; have := sizeOf_pos_fslist l; omega
  | succ N ih =>
    intro l hl rel r hr
    rcases List.mem_append.1 hr with h | h
    · obtain ⟨f, hf, hh, ha, rfl⟩ := mem_recsOfDir_iff.1 h
      exact ScanHit.file hf hh ha
    · obtain ⟨n, es, hd, hk, hmem⟩ := mem_walkDirs_iff.1 h
      have h1 := sizeOf_lt_of_mem_toList hd
      have h2 : sizeOf (FSEntry.dir n es) = 1 + sizeOf n + sizeOf es := by simp
      exact ScanHit.dir hd hk (ih es (by omega) _ _ hmem)

/-- Scan membership is exactly derivability of a `ScanHit`. -/
theorem mem_scanAt_iff {cfg : ScanConfig} {base rel : String} {l : FSList} {r : FileInfo} :
    r ∈ scanAt cfg base rel l ↔ ScanHit cfg base rel l r :=
  ⟨mem_scanHit_aux (sizeOf l) l le_rfl rel r, scanHit_mem⟩

theorem mem_scan_iff {base : String} {cfg : ScanConfig} {root : FSList} {r : FileInfo} :
    r ∈ scan_directory base cfg root ↔ ScanHit cfg base "" root r :=
  mem_scanAt_iff

/-- Every scanned record is the `file_info` of some visible, accepted
file node. -/
theorem scanHit_shape {cfg : ScanConfig} {base : String} :
    ∀ {rel : String} {l : FSList} {r : FileInfo}, ScanHit cfg base rel l r →
      ∃ relDir f, r = mkFileInfo base relDir f
        ∧ (cfg.ignoreHidden = true → startsWithDot f.name = false)
        ∧ acceptFile cfg relDir f = true := by
  intro rel l r h
  induction h with
  | file hf hh ha => exact ⟨_, _, rfl, hh, ha⟩
  | dir _ _ _ ih => exact ih

theorem acceptFile_exclude {cfg : ScanConfig} {rel : String} {f : FileNode}
    (h : acceptFile cfg rel f = true) :
    should_exclude (joinRel rel f.name) cfg.excludePatterns = false := by
  unfold acceptFile at h
  rcases hx : should_exclude (joinRel rel f.name) cfg.excludePatterns with _ | _
  · rfl
  · rw [hx] at h; simp at h

theorem acceptFile_is_text {cfg : ScanConfig} {rel : String} {f : FileNode}
    (h : acceptFile cfg rel f = true) : is_text_file f = true := by
  unfold acceptFile at h
  rcases hx : is_text_file f with _ | _
  · rw [hx] at h; simp at h
  · rfl

theorem mkFileInfo_path (base rel : String) (f : FileNode) :
    (mkFileInfo base rel f).path = joinRel rel f.name := rfl

theorem mkFileInfo_content (base rel : String) (f : FileNode) :
    (mkFileInfo base rel f).content = read_file_content (joinRel base (joinRel rel f.name)) f := rfl

theorem mkFileInfo_lines (base rel : String) (f : FileNode) :
    (mkFileInfo base rel f).lines = pySplitlinesLen (mkFileInfo base rel f).content := rfl
theorem charsLt_asymm : ∀ {as bs : List Char}, charsLt as bs = true → charsLt bs as = false := by
  intro as
  induction as with
  | nil =>
    intro bs h
    cases bs with
    | nil => simp [charsLt] at h
    | cons b bs' => simp [charsLt]
  | cons a as' ih =>
    intro bs h
    cases bs with
    | nil => simp [charsLt] at h
    | cons b bs' =>
      by_cases hab : a = b
      · subst hab
        have h' : charsLt as' bs' = true := by simpa [charsLt] using h
        simpa [charsLt] using ih h'
      · have h' : a < b := by simpa [charsLt, hab] using h
        have hnb : ¬ b < a := fun hc => absurd (lt_trans h' hc) (lt_irrefl a)
        simp [charsLt, Ne.symm hab, hnb]

theorem charsLt_linear : ∀ (as bs cs : List Char),
    charsLt as cs = true → charsLt as bs = true ∨ charsLt bs cs = true := by
  intro as
  induction as with
  | nil =>
    intro bs cs h
    cases bs with
    | nil => exact Or.inr h
    | cons b bs' => exact Or.inl (by simp [charsLt])
  | cons a as' ih =>
    intro bs cs h
    cases cs with
    | nil => simp [charsLt] at h
    | cons c cs' =>
      cases bs with
      | nil => exact Or.inr (by simp [charsLt])
      | cons b bs' =>
        by_cases hac : a = c
        · subst hac
          have h' : charsLt as' cs' = true := by simpa [charsLt] using h
          by_cases hab : a = b
          · subst hab
            rcases ih bs' cs' h' with h1 | h1
            · exact Or.inl (by simpa [charsLt] using h1)
            · exact Or.inr (by simpa [charsLt] using h1)
          · rcases lt_trichotomy a b with h1 | h1 | h1
            · exact Or.inl (by simp [charsLt, hab, h1])
            · exact absurd h1 hab
            · have hba : b ≠ a := ne_of_lt h1
              exact Or.inr (by simp [charsLt, hba, h1])
        · have hlt : a < c := by simpa [charsLt, hac] using h
          by_cases hab : a = b
          · subst hab
            exact Or.inr (by simp [charsLt, hac, hlt])
          · rcases lt_trichotomy a b with h1 | h1 | h1
            · exact Or.inl (by simp [charsLt, hab, h1])
            · exact absurd h1 hab
            · by_cases hbc : b = c
              · subst hbc
                exact absurd (lt_trans hlt h1) (lt_irrefl _)
              · exact Or.inr (by simp [charsLt, hbc, lt_trans h1 hlt])

theorem mem_insertEntry {e y : FSEntry} : ∀ {l : List FSEntry},
    y ∈ insertEntry e l ↔ y = e ∨ y ∈ l := by
  intro l
  induction l with
  | nil => simp [insertEntry]
  | cons x xs ih =>
    by_cases h : charsLt x.name.data e.name.data = true
    · simp only [insertEntry, if_pos h, List.mem_cons, ih]
      tauto
    · simp [insertEntry, if_neg h]

theorem sorted_insertEntry {e : FSEntry} : ∀ {l : List FSEntry},
    List.Sorted nameLe l → List.Sorted nameLe (insertEntry e l) := by
  intro l
  induction l with
  | nil => intro _; simp [insertEntry]
  | cons x xs ih =>
    intro hs
    obtain ⟨hx, hxs⟩ := List.sorted_cons.1 hs
    by_cases h : charsLt x.name.data e.name.data = true
    · rw [show insertEntry e (x :: xs) = x :: insertEntry e xs from by simp [insertEntry, h]]
      refine List.sorted_cons.2 ⟨?_, ih hxs⟩
      intro y hy
      rcases mem_insertEntry.1 hy with rfl | hy
      · exact charsLt_asymm h
      · exact hx y hy
    · rw [show insertEntry e (x :: xs) = e :: x :: xs from by simp [insertEntry, h]]
      refine List.sorted_cons.2 ⟨?_, hs⟩
      intro y hy
      have hxe : charsLt x.name.data e.name.data = false := by
        rcases hb : charsLt x.name.data e.name.data with _ | _
        · rfl
        · exact absurd hb h
      rcases List.mem_cons.1 hy with rfl | hy
      · exact hxe
      · rcases hye : charsLt y.name.data e.name.data with _ | _
        · exact hye
        · rcases charsLt_linear y.name.data x.name.data e.name.data hye with h1 | h1
          · rw [hx y hy] at h1; cases h1
          · rw [hxe] at h1; cases h1

theorem perm_insertEntry (e : FSEntry) : ∀ (l : List FSEntry),
    (insertEntry e l).Perm (e :: l) := by
  intro l
  induction l with
  | nil => simp [insertEntry]
  | cons x xs ih =>
    by_cases h : charsLt x.name.data e.name.data = true
    · rw [show insertEntry e (x :: xs) = x :: insertEntry e xs from by simp [insertEntry, h]]
      exact (ih.cons x).trans (List.Perm.swap e x xs)
    · rw [show insertEntry e (x :: xs) = e :: x :: xs from by simp [insertEntry, h]]

theorem sorted_sortByName (l : List FSEntry) : List.Sorted nameLe (sortByName l) := by
  induction l with
  | nil => simp [sortByName]
  | cons e rest ih => exact sorted_insertEntry ih

theorem perm_sortByName (l : List FSEntry) : (sortByName l).Perm l := by
  induction l with
  | nil => simp [sortByName]
  | cons e rest ih => exact (perm_insertEntry e (sortByName rest)).trans (ih.cons e)

theorem joinRel_ne_empty {a : String} (s : String) (h : a ≠ "") : joinRel a s ≠ "" := by
  unfold joinRel
  rw [if_neg h]
  intro hc
  have := congrArg String.data hc
  simp [String.data_append] at this

theorem foldl_joinRel_pyJoin : ∀ (segs : List String) (a : String), a ≠ "" →
    List.foldl joinRel a segs = pyJoin "/" (a :: segs) := by
  intro segs
  induction segs with
  | nil => intro a _; rfl
  | cons s t ih =>
    intro a ha
    rw [List.foldl_cons]
    cases t with
    | nil => simp [pyJoin, joinRel, ha]
    | cons u v =>
      rw [ih (joinRel a s) (joinRel_ne_empty s ha)]
      simp [pyJoin, joinRel, ha, String.append_assoc]
theorem keepDir_hidden {cfg : ScanConfig} {rel n : String}
    (hk : keepDir cfg rel n = true) (hih : cfg.ignoreHidden = true) :
    startsWithDot n = false := by
  unfold keepDir at hk
  rcases hs : startsWithDot n with _ | _
  · rfl
  · rw [hih, hs] at hk
    simp at hk

theorem swd_ne_git {s : String} (h : startsWithDot s = false) : s ≠ ".git" := by
  intro hc
  rw [hc] at h
  exact absurd h (by decide)

theorem wfNames_of_mem {e : FSEntry} : ∀ {l : FSList},
    e ∈ l.toList → FSList.wfNamesList l = true → FSEntry.wfNames e = true := by
  intro l
  induction l using FSList.recList with
  | nil => simp [FSList.toList]
  | cons x r ih =>
    intro hm hwf
    have hwf' : FSEntry.wfNames x = true ∧ FSList.wfNamesList r = true := by
      simpa [FSList.wfNamesList, Bool.and_eq_true] using hwf
    rcases List.mem_cons.1 (by simpa [FSList.toList] using hm) with rfl | hm
    · exact hwf'.1
    · exact ih hm hwf'.2

theorem scanHit_segments {cfg : ScanConfig} {base : String} (hih : cfg.ignoreHidden = true) :
    ∀ {rel : String} {l : FSList} {r : FileInfo}, ScanHit cfg base rel l r →
      FSList.wfNamesList l = true →
      ∃ segs : List String, segs ≠ []
        ∧ (∀ s ∈ segs, s ≠ "" ∧ startsWithDot s = false ∧ s ≠ ".git")
        ∧ r.path = List.foldl joinRel rel segs := by
  intro rel l r h
  induction h with
  | @file rel' l' f hf hh ha =>
    intro hwf
    have hw := wfNames_of_mem hf hwf
    have hne : f.name ≠ "" := by simpa [FSEntry.wfNames] using hw
    refine ⟨[f.name], by simp, ?_, ?_⟩
    · intro s hs
      rcases List.mem_singleton.1 hs with rfl
      exact ⟨hne, hh hih, swd_ne_git (hh hih)⟩
    · rw [mkFileInfo_path]
      simp [List.foldl]
  | @dir rel' l' n es r' hd hk hsub ih =>
    intro hwf
    have hw := wfNames_of_mem hd hwf
    have hne : n ≠ "" ∧ FSList.wfNamesList es = true := by
      simpa [FSEntry.wfNames, Bool.and_eq_true] using hw
    obtain ⟨segs, hner, hgood, hpath⟩ := ih hne.2
    refine ⟨n :: segs, by simp, ?_, ?_⟩
    · intro s hs
      rcases List.mem_cons.1 hs with rfl | hs
      · have hswd := keepDir_hidden hk hih
        exact ⟨hne.1, hswd, swd_ne_git hswd⟩
      · exact hgood s hs
    · rw [hpath, List.foldl_cons]
theorem files_prune : ∀ l : FSList,
    (pruneNullFiles l).files = l.files.filter (fun f => !((f.bytes.take 1024).contains 0)) := by
  intro l
  induction l using FSList.recList with
  | nil => rfl
  | cons e r ih =>
    cases e with
    | file f =>
      rcases hc : (f.bytes.take 1024).contains 0 with _ | _
      · have hm : (0 : Nat) ∉ f.bytes.take 1024 := by simpa using hc
        simp [pruneNullFiles, hc, hm, FSList.files, ih]
      · have hm : (0 : Nat) ∈ f.bytes.take 1024 := by simpa using hc
        simp [pruneNullFiles, hc, hm, FSList.files, ih]
    | dir n es => simp [pruneNullFiles, FSList.files, ih]
    | denied n => simp [pruneNullFiles, FSList.files, ih]

theorem accept_not_null {cfg : ScanConfig} {rel : String} {f : FileNode}
    (h : acceptFile cfg rel f = true) : ((f.bytes.take 1024).contains 0) = false := by
  have ht := acceptFile_is_text h
  unfold is_text_file at ht
  rcases hcf : f.classifyFails with _ | _
  · rw [hcf] at ht
    simpa using ht
  · rw [hcf] at ht
    simp at ht

theorem recsOfDir_prune {cfg : ScanConfig} {base rel : String} (l : FSList) :
    recsOfDir cfg base rel (pruneNullFiles l) = recsOfDir cfg base rel l := by
  unfold recsOfDir visibleFiles
  rw [files_prune]
  rcases hih : cfg.ignoreHidden with _ | _
  · simp only [Bool.false_eq_true, if_false, List.filter_filter]
    congr 1
    apply List.filter_congr
    intro f _
    rcases ha : acceptFile cfg rel f with _ | _
    · simp
    · have hm : (0 : Nat) ∉ f.bytes.take 1024 := by simpa using accept_not_null ha
      simp [hm]
  · simp only [if_true, List.filter_filter]
    congr 1
    apply List.filter_congr
    intro f _
    rcases ha : acceptFile cfg rel f with _ | _
    · simp
    · have hm : (0 : Nat) ∉ f.bytes.take 1024 := by simpa using accept_not_null ha
      simp [hm]

theorem walkDirs_prune {cfg : ScanConfig} {base : String} :
    ∀ (N : Nat) (l : FSList), sizeOf l ≤ N → ∀ rel : String,
      walkDirs cfg base rel (pruneNullFiles l) = walkDirs cfg base rel l := by
  intro N
  induction N with
  | zero => intro l hl; have := sizeOf_pos_fslist l; omega
  | succ N ih =>
    intro l hl rel
    cases l with
    | nil => rfl
    | cons e rest =>
      have hsz : sizeOf (FSList.cons e rest) = 1 + sizeOf e + sizeOf rest := by simp
      cases e with
      | file f =>
        rw [show pruneNullFiles (FSList.cons (FSEntry.file f) rest)
              = if (f.bytes.take 1024).contains 0 then pruneNullFiles rest
                else FSList.cons (FSEntry.file f) (pruneNullFiles rest) from rfl]
        rcases hc : (f.bytes.take 1024).contains 0 with _ | _
        · rw [if_neg (by simp [hc])]
          rw [show walkDirs cfg base rel (FSList.cons (FSEntry.file f) (pruneNullFiles rest))
                = walkDirs cfg base rel (pruneNullFiles rest) from rfl]
          rw [show walkDirs cfg base rel (FSList.cons (FSEntry.file f) rest)
                = walkDirs cfg base rel rest from rfl]
          exact ih rest (by omega) rel
        · rw [if_pos (by simp [hc])]
          rw [show walkDirs cfg base rel (FSList.cons (FSEntry.file f) rest)
                = walkDirs cfg base rel rest from rfl]
          exact ih rest (by omega) rel
      | dir n es =>
        have hes : sizeOf (FSEntry.dir n es) = 1 + sizeOf n + sizeOf es := by simp
        rw [show pruneNullFiles (FSList.cons (FSEntry.dir n es) rest)
              = FSList.cons (FSEntry.dir n (pruneNullFiles es)) (pruneNullFiles rest) from rfl]
        rw [show walkDirs cfg base rel (FSList.cons (FSEntry.dir n (pruneNullFiles es)) (pruneNullFiles rest))
              = (if keepDir cfg rel n then
                   recsOfDir cfg base (joinRel rel n) (pruneNullFiles es)
                     ++ walkDirs cfg base (joinRel rel n) (pruneNullFiles es)
                 else []) ++ walkDirs cfg base rel (pruneNullFiles rest) from rfl]
        rw [show walkDirs cfg base rel (FSList.cons (FSEntry.dir n es) rest)
              = (if keepDir cfg rel n then
                   recsOfDir cfg base (joinRel rel n) es
                     ++ walkDirs cfg base (joinRel rel n) es
                 else []) ++ walkDirs cfg base rel rest from rfl]
        rw [recsOfDir_prune es, ih es (by omega) (joinRel rel n), ih rest (by omega) rel]
      | denied n =>
        rw [show pruneNullFiles (FSList.cons (FSEntry.denied n) rest)
              = FSList.cons (FSEntry.denied n) (pruneNullFiles rest) from rfl]
        rw [show walkDirs cfg base rel (FSList.cons (FSEntry.denied n) (pruneNullFiles rest))
              = walkDirs cfg base rel (pruneNullFiles rest) from rfl]
        rw [show walkDirs cfg base rel (FSList.cons (FSEntry.denied n) rest)
              = walkDirs cfg base rel rest from rfl]
        exact ih rest (by omega) rel

theorem scan_prune (base : String) (cfg : ScanConfig) (root : FSList) :
    scan_directory base cfg (pruneNullFiles root) = scan_directory base cfg root := by
  unfold scan_directory scanAt
  rw [recsOfDir_prune root, walkDirs_prune (sizeOf root) root le_rfl ""]
theorem files_setRF : ∀ l : FSList,
    (setReadFailsAll l).files = l.files.map setReadFailsNode := by
  intro l
  induction l using FSList.recList with
  | nil => rfl
  | cons e r ih =>
    cases e with
    | file f => simp [setReadFailsAll, FSList.files, ih]
    | dir n es => simp [setReadFailsAll, FSList.files, ih]
    | denied n => simp [setReadFailsAll, FSList.files, ih]

theorem recsOfDir_setRF_paths {cfg : ScanConfig} {base rel : String} (l : FSList) :
    (recsOfDir cfg base rel (setReadFailsAll l)).map (fun r => r.path)
      = (recsOfDir cfg base rel l).map (fun r => r.path) := by
  unfold recsOfDir visibleFiles
  rw [files_setRF]
  rcases hih : cfg.ignoreHidden with _ | _
  · simp only [Bool.false_eq_true, if_false, List.filter_map, List.map_map]
    rfl
  · simp only [if_true, List.filter_map, List.map_map]
    rfl

theorem walkDirs_setRF_paths {cfg : ScanConfig} {base : String} :
    ∀ (N : Nat) (l : FSList), sizeOf l ≤ N → ∀ rel : String,
      (walkDirs cfg base rel (setReadFailsAll l)).map (fun r => r.path)
        = (walkDirs cfg base rel l).map (fun r => r.path) := by
  intro N
  induction N with
  | zero => intro l hl; have := sizeOf_pos_fslist l; omega
  | succ N ih =>
    intro l hl rel
    cases l with
    | nil => rfl
    | cons e rest =>
      have hsz : sizeOf (FSList.cons e rest) = 1 + sizeOf e + sizeOf rest := by simp
      cases e with
      | file f =>
        rw [show setReadFailsAll (FSList.cons (FSEntry.file f) rest)
              = FSList.cons (FSEntry.file (setReadFailsNode f)) (setReadFailsAll rest) from rfl]
        rw [show walkDirs cfg base rel (FSList.cons (FSEntry.file (setReadFailsNode f)) (setReadFailsAll rest))
              = walkDirs cfg base rel (setReadFailsAll rest) from rfl]
        rw [show walkDirs cfg base rel (FSList.cons (FSEntry.file f) rest)
              = walkDirs cfg base rel rest from rfl]
        exact ih rest (by omega) rel
      | dir n es =>
        have hes : sizeOf (FSEntry.dir n es) = 1 + sizeOf n + sizeOf es := by simp
        rw [show setReadFailsAll (FSList.cons (FSEntry.dir n es) rest)
              = FSList.cons (FSEntry.dir n (setReadFailsAll es)) (setReadFailsAll rest) from rfl]
        rw [show walkDirs cfg base rel (FSList.cons (FSEntry.dir n (setReadFailsAll es)) (setReadFailsAll rest))
              = (if keepDir cfg rel n then
                   recsOfDir cfg base (joinRel rel n) (setReadFailsAll es)
                     ++ walkDirs cfg base (joinRel rel n) (setReadFailsAll es)
                 else []) ++ walkDirs cfg base rel (setReadFailsAll rest) from rfl]
        rw [show walkDirs cfg base rel (FSList.cons (FSEntry.dir n es) rest)
              = (if keepDir cfg rel n then
                   recsOfDir cfg base (joinRel rel n) es
                     ++ walkDirs cfg base (joinRel rel n) es
                 else []) ++ walkDirs cfg base rel rest from rfl]
        rcases hk : keepDir cfg rel n with _ | _
        · simp only [Bool.false_eq_true, if_false, List.nil_append]
          exact ih rest (by omega) rel
        · simp only [if_true, List.map_append]
          rw [recsOfDir_setRF_paths es, ih es (by omega) (joinRel rel n), ih rest (by omega) rel]
      | denied n =>
        rw [show setReadFailsAll (FSList.cons (FSEntry.denied n) rest)
              = FSList.cons (FSEntry.denied n) (setReadFailsAll rest) from rfl]
        rw [show walkDirs cfg base rel (FSList.cons (FSEntry.denied n) (setReadFailsAll rest))
              = walkDirs cfg base rel (setReadFailsAll rest) from rfl]
        rw [show walkDirs cfg base rel (FSList.cons (FSEntry.denied n) rest)
              = walkDirs cfg base rel rest from rfl]
        exact ih rest (by omega) rel

theorem scan_setRF_paths (base : String) (cfg : ScanConfig) (root : FSList) :
    (scan_directory base cfg (setReadFailsAll root)).map (fun r => r.path)
      = (scan_directory base cfg root).map (fun r => r.path) := by
  unfold scan_directory scanAt
  rw [List.map_append, List.map_append, recsOfDir_setRF_paths root,
      walkDirs_setRF_paths (sizeOf root) root le_rfl ""]

theorem readFails_of_file_mem_setRF {f : FileNode} : ∀ {l : FSList},
    FSEntry.file f ∈ (setReadFailsAll l).toList → f.readFails = true := by
  intro l
  induction l using FSList.recList with
  | nil => simp [setReadFailsAll, FSList.toList]
  | cons e r ih =>
    intro hm
    cases e with
    | file g =>
      have hm' : f = setReadFailsNode g ∨ FSEntry.file f ∈ (setReadFailsAll r).toList := by
        simpa [setReadFailsAll, FSList.toList] using hm
      rcases hm' with rfl | hm'
      · rfl
      · exact ih hm'
    | dir n es =>
      exact ih (by simpa [setReadFailsAll, FSList.toList] using hm)
    | denied n =>
      exact ih (by simpa [setReadFailsAll, FSList.toList] using hm)

theorem dir_mem_setRF {n : String} {es : FSList} : ∀ {l : FSList},
    FSEntry.dir n es ∈ (setReadFailsAll l).toList → ∃ es₀, es = setReadFailsAll es₀ := by
  intro l
  induction l using FSList.recList with
  | nil => simp [setReadFailsAll, FSList.toList]
  | cons e r ih =>
    intro hm
    cases e with
    | file g =>
      exact ih (by simpa [setReadFailsAll, FSList.toList] using hm)
    | dir m es' =>
      have hm' : (n = m ∧ es = setReadFailsAll es') ∨ FSEntry.dir n es ∈ (setReadFailsAll r).toList := by
        simpa [setReadFailsAll, FSList.toList] using hm
      rcases hm' with ⟨_, heq⟩ | hm'
      · exact ⟨es', heq⟩
      · exact ih hm'
    | denied m =>
      exact ih (by simpa [setReadFailsAll, FSList.toList] using hm)

theorem scanHit_setRF_content {cfg : ScanConfig} {base : String} :
    ∀ {rel : String} {L : FSList} {r : FileInfo}, ScanHit cfg base rel L r →
      ∀ l₀ : FSList, L = setReadFailsAll l₀ →
      ∃ p m, r.content = "Error reading file " ++ p ++ ": " ++ m := by
  intro rel L r h
  induction h with
  | @file rel' l' f hf hh ha =>
    intro l₀ heq
    subst heq
    have hrf := readFails_of_file_mem_setRF hf
    refine ⟨joinRel base (joinRel rel' f.name), f.errMsg, ?_⟩
    rw [mkFileInfo_content]
    simp [read_file_content, hrf]
  | @dir rel' l' n es r' hd hk hsub ih =>
    intro l₀ heq
    subst heq
    obtain ⟨es₀, rfl⟩ := dir_mem_setRF hd
    exact ih es₀ rfl
theorem countLB_cons_of_ne_cr (c : Char) (rest : List Char) (h : c ≠ '\r') :
    countLineBoundaries (c :: rest)
      = (if isLineBreak c then 1 else 0) + countLineBoundaries rest := by
  cases rest with
  | nil => simp [countLineBoundaries, h]
  | cons d rest' =>
    by_cases hd : d = '\n'
    · subst hd
      rw [countLineBoundaries.eq_2, if_neg h]
    · rw [countLineBoundaries.eq_3 c (d :: rest') (fun r hr => absurd (List.cons.inj hr).1 hd),
          if_neg h]

theorem countLB_no_cr : ∀ cs : List Char,
    (∀ c ∈ cs, isLineBreak c = true → c = '\n') →
    countLineBoundaries cs = cs.count '\n' := by
  intro cs
  induction cs with
  | nil => intro _; rfl
  | cons c rest ih =>
    intro h
    have hc : c ≠ '\r' := by
      intro heq
      subst heq
      exact absurd (h '\r' (List.mem_cons_self _ _) (by decide)) (by decide)
    rw [countLB_cons_of_ne_cr c rest hc, List.count_cons,
        ih (fun d hm hb => h d (List.mem_cons_of_mem _ hm) hb)]
    by_cases hn : c = '\n'
    · subst hn
      simp [show isLineBreak '\n' = true from rfl]
      omega
    · have hb : isLineBreak c = false := by
        rcases hB : isLineBreak c with _ | _
        · rfl
        · exact absurd (h c (List.mem_cons_self _ _) hB) hn
      simp [hb, hn]

theorem endsWith_no_cr (cs : List Char)
    (h : ∀ c ∈ cs, isLineBreak c = true → c = '\n') :
    (endsWithLineBreak cs = true ↔ cs.getLast? = some '\n') := by
  unfold endsWithLineBreak
  rcases hg : cs.getLast? with _ | c
  · simp
  · have hmem : c ∈ cs := List.mem_of_mem_getLast? (by simp [hg])
    constructor
    · intro hb
      rw [h c hmem hb]
    · intro hsome
      cases Option.some.inj hsome
      decide

theorem splitlines_eq_newlineSegments (cs : List Char)
    (h : ∀ c ∈ cs, isLineBreak c = true → c = '\n') :
    splitlinesLenChars cs = newlineSegmentsChars cs := by
  unfold splitlinesLenChars newlineSegmentsChars
  rw [countLB_no_cr cs h]
  by_cases he : cs = []
  · simp [he]
  · rw [if_neg he, if_neg he]
    by_cases hg : cs.getLast? = some '\n'
    · rw [if_pos hg, if_pos ((endsWith_no_cr cs h).2 hg)]
    · rw [if_neg hg, if_neg ?_]
      intro hE
      exact hg ((endsWith_no_cr cs h).1 hE)

theorem claimSections_eq : ∀ files : List FileInfo,
    claimSections files
      = pyJoin "\n" (files.map fileSection) ++ (if files.isEmpty then "" else "\n") := by
  intro files
  induction files with
  | nil => simp [claimSections, pyJoin]
  | cons f rest ih =>
    cases rest with
    | nil => simp [claimSections, pyJoin]
    | cons g t =>
      rw [show claimSections (f :: g :: t) = (fileSection f ++ "\n") ++ claimSections (g :: t) from rfl,
          ih]
      simp [pyJoin, String.append_assoc]

theorem claimDump_vs_code : ∀ (files : List FileInfo) (tree : String),
    claimDumpText files tree
      = create_file_content_string files tree ++ (if files.isEmpty then "" else "\n") := by
  intro files tree
  unfold claimDumpText create_file_content_string
  rw [claimSections_eq]
  simp [String.append_assoc]
theorem mkFileInfoExc_ok {base rel : String} {f : FileNode} (h : f.sizeFails = false) :
    mkFileInfoExc base rel f = Except.ok (mkFileInfo base rel f) := by
  simp [mkFileInfoExc, os_path_getsize, h, mkFileInfo]

theorem collect_ok {base rel : String} : ∀ fs : List FileNode,
    (∀ f ∈ fs, f.sizeFails = false) →
    collectExc base rel fs = Except.ok (fs.map (fun f => mkFileInfo base rel f)) := by
  intro fs
  induction fs with
  | nil => intro _; rfl
  | cons f rest ih =>
    intro h
    have hf : f.sizeFails = false := h f (List.mem_cons_self _ _)
    have hrest := ih (fun g hg => h g (List.mem_cons_of_mem _ hg))
    simp [collectExc, mkFileInfoExc_ok hf, hrest]

theorem files_noSizeFails : ∀ {l : FSList}, noSizeFails l = true →
    ∀ f ∈ l.files, f.sizeFails = false := by
  intro l
  induction l using FSList.recList with
  | nil => intro _ f hf; simp [FSList.files] at hf
  | cons e r ih =>
    intro h f hf
    cases e with
    | file g =>
      have h' : (!g.sizeFails) = true ∧ noSizeFails r = true := by
        simpa [noSizeFails, Bool.and_eq_true] using h
      rcases List.mem_cons.1 (by simpa [FSList.files] using hf) with rfl | hf'
      · simpa using h'.1
      · exact ih h'.2 f hf'
    | dir n es =>
      have h' : noSizeFails es = true ∧ noSizeFails r = true := by
        simpa [noSizeFails, Bool.and_eq_true] using h
      exact ih h'.2 f (by simpa [FSList.files] using hf)
    | denied n =>
      exact ih (by simpa [noSizeFails] using h) f (by simpa [FSList.files] using hf)

theorem recsOfDirExc_ok {cfg : ScanConfig} {base rel : String} {l : FSList}
    (h : noSizeFails l = true) :
    recsOfDirExc cfg base rel l = Except.ok (recsOfDir cfg base rel l) := by
  unfold recsOfDirExc recsOfDir
  apply collect_ok
  intro f hf
  obtain ⟨hv, _⟩ := List.mem_filter.1 hf
  exact files_noSizeFails h f (mem_visibleFiles_iff.1 hv).1

theorem walkDirsExc_ok {cfg : ScanConfig} {base : String} :
    ∀ (N : Nat) (l : FSList), sizeOf l ≤ N → ∀ rel : String, noSizeFails l = true →
      walkDirsExc cfg base rel l = Except.ok (walkDirs cfg base rel l) := by
  intro N
  induction N with
  | zero => intro l hl; have := sizeOf_pos_fslist l; omega
  | succ N ih =>
    intro l hl rel h
    cases l with
    | nil => rfl
    | cons e rest =>
      have hsz : sizeOf (FSList.cons e rest) = 1 + sizeOf e + sizeOf rest := by simp
      cases e with
      | file f =>
        have h' : noSizeFails rest = true := by
          have := (by simpa [noSizeFails, Bool.and_eq_true] using h :
            (!f.sizeFails) = true ∧ noSizeFails rest = true)
          exact this.2
        rw [show walkDirsExc cfg base rel (FSList.cons (FSEntry.file f) rest)
              = walkDirsExc cfg base rel rest from rfl]
        rw [show walkDirs cfg base rel (FSList.cons (FSEntry.file f) rest)
              = walkDirs cfg base rel rest from rfl]
        exact ih rest (by omega) rel h'
      | dir n es =>
        have hes : sizeOf (FSEntry.dir n es) = 1 + sizeOf n + sizeOf es := by simp
        have h' : noSizeFails es = true ∧ noSizeFails rest = true := by
          simpa [noSizeFails, Bool.and_eq_true] using h
        rw [show walkDirsExc cfg base rel (FSList.cons (FSEntry.dir n es) rest)
              = (if keepDir cfg rel n then
                   match recsOfDirExc cfg base (joinRel rel n) es with
                   | Except.error e => Except.error e
                   | Except.ok recs1 =>
                       match walkDirsExc cfg base (joinRel rel n) es with
                       | Except.error e => Except.error e
                       | Except.ok recs2 =>
                           match walkDirsExc cfg base rel rest with
                           | Except.error e => Except.error e
                           | Except.ok recs3 => Except.ok (recs1 ++ recs2 ++ recs3)
                 else walkDirsExc cfg base rel rest) from rfl]
        rw [show walkDirs cfg base rel (FSList.cons (FSEntry.dir n es) rest)
              = (if keepDir cfg rel n then
                   recsOfDir cfg base (joinRel rel n) es
                     ++ walkDirs cfg base (joinRel rel n) es
                 else []) ++ walkDirs cfg base rel rest from rfl]
        rcases hk : keepDir cfg rel n with _ | _
        · simp only [Bool.false_eq_true, if_false, List.nil_append]
          exact ih rest (by omega) rel h'.2
        · simp only [if_true]
          rw [recsOfDirExc_ok h'.1, ih es (by omega) (joinRel rel n) h'.1,
              ih rest (by omega) rel h'.2]
      | denied n =>
        rw [show walkDirsExc cfg base rel (FSList.cons (FSEntry.denied n) rest)
              = walkDirsExc cfg base rel rest from rfl]
        rw [show walkDirs cfg base rel (FSList.cons (FSEntry.denied n) rest)
              = walkDirs cfg base rel rest from rfl]
        exact ih rest (by omega) rel (by simpa [noSizeFails] using h)

theorem scanExc_eq_scan (base : String) (cfg : ScanConfig) (root : FSList)
    (h : noSizeFails root = true) :
    scan_directory_exc base cfg root = Except.ok (scan_directory base cfg root) := by
  unfold scan_directory_exc scanAtExc scan_directory scanAt
  rw [recsOfDirExc_ok h, walkDirsExc_ok (sizeOf root) root le_rfl "" h]

theorem noSizeFails_setRF_aux : ∀ (N : Nat) (l : FSList), sizeOf l ≤ N →
    noSizeFails (setReadFailsAll l) = noSizeFails l := by
  intro N
  induction N with
  | zero => intro l hl; have := sizeOf_pos_fslist l; omega
  | succ N ih =>
    intro l hl
    cases l with
    | nil => rfl
    | cons e rest =>
      have hsz : sizeOf (FSList.cons e rest) = 1 + sizeOf e + sizeOf rest := by simp
      cases e with
      | file f =>
        simp [setReadFailsAll, noSizeFails, setReadFailsNode, ih rest (by omega)]
      | dir n es =>
        have hes : sizeOf (FSEntry.dir n es) = 1 + sizeOf n + sizeOf es := by simp
        simp [setReadFailsAll, noSizeFails, ih es (by omega), ih rest (by omega)]
      | denied n =>
        simp [setReadFailsAll, noSizeFails, ih rest (by omega)]

theorem noSizeFails_setRF (l : FSList) : noSizeFails (setReadFailsAll l) = noSizeFails l :=
  noSizeFails_setRF_aux (sizeOf l) l le_rfl

/-- C1 (counterexample): with `ignoreHidden = false` and no exclude
patterns, the scan descends into `.git` and emits a record whose
relative path has the segment `.git` — the claimed unconditional pruning
does not hold for the scanner. -/
theorem c1_counterexample :
    (scan_directory "base" cfg0 fsGit).map (fun r => r.path) = [".git/config"] := by
  decide

/-- C1 (amended): only the tree renderer omits `.git` unconditionally;
the scanner prunes it only through `ignoreHidden` (or an exclude
pattern).  With `ignoreHidden = true` every record path splits into
segments none of which is empty, starts with a dot, or equals `.git`;
and the renderer drops `.git` from every listing before sorting. -/
theorem c1_amended :
    (∀ (base : String) (cfg : ScanConfig) (root : FSList) (r : FileInfo),
        cfg.ignoreHidden = true → FSList.wfNamesList root = true →
        r ∈ scan_directory base cfg root →
        ∃ segs : List String, segs ≠ []
          ∧ (∀ s ∈ segs, s ≠ "" ∧ startsWithDot s = false ∧ s ≠ ".git")
          ∧ r.path = pyJoin "/" segs)
    ∧ (∀ (fuel : Nat) (pre : String) (entries : List FSEntry),
        buildLinesF (fuel + 1) pre entries
          = renderLevel (buildLinesF fuel) pre
              (sortByName (entries.filter (fun e => e.name ≠ ".git"))))
    ∧ create_directory_tree fsGitAndFile = "Directory structure:\n└── a" := by
  refine ⟨?_, fun _ _ _ => rfl, by decide⟩
  intro base cfg root r hih hwf hr
  obtain ⟨segs, hne, hgood, hpath⟩ := scanHit_segments hih (mem_scan_iff.1 hr) hwf
  rcases segs with _ | ⟨s, rest⟩
  · exact absurd rfl hne
  · refine ⟨s :: rest, hne, hgood, ?_⟩
    rw [hpath, List.foldl_cons, show joinRel "" s = s from by simp [joinRel]]
    exact foldl_joinRel_pyJoin rest s (hgood s (List.mem_cons_self _ _)).1

/-- C1 (witness): the amended statement at a concrete scan. -/
theorem c1_witness :
    ∃ segs : List String, segs ≠ []
      ∧ (∀ s ∈ segs, s ≠ "" ∧ startsWithDot s = false ∧ s ≠ ".git")
      ∧ (mkFileInfo "b" "d" (txtNode "x" "1")).path = pyJoin "/" segs :=
  c1_amended.1 "b" { cfg0 with ignoreHidden := true } fsNested
    (mkFileInfo "b" "d" (txtNode "x" "1")) (by decide) (by decide) (by decide)

/-- C2 (confirmed): a record never matches an exclude pattern — the
per-file test checks `should_exclude` first, so a path matching an
exclude pattern yields no record even when it also matches an include
pattern; concretely, exclude `*.md` beats include `README.md`. -/
theorem c2_exclusion_precedence :
    (∀ (base : String) (cfg : ScanConfig) (root : FSList) (r : FileInfo),
        r ∈ scan_directory base cfg root →
        should_exclude r.path cfg.excludePatterns = false)
    ∧ scan_directory "b"
        { excludePatterns := ["*.md"], includePatterns := ["README.md"],
          verbose := false, ignoreHidden := false }
        (fsOf [txtFile "README.md" "r"]) = [] := by
  refine ⟨?_, by decide⟩
  intro base cfg root r hr
  obtain ⟨relDir, f, rfl, _, ha⟩ := scanHit_shape (mem_scan_iff.1 hr)
  rw [mkFileInfo_path]
  exact acceptFile_exclude ha

/-- C2 (witness): the exclusion-freeness of a concrete scanned record. -/
theorem c2_witness : should_exclude "a.txt" ["*.md"] = false :=
  c2_exclusion_precedence.1 "b"
    { excludePatterns := ["*.md"], includePatterns := [], verbose := false, ignoreHidden := false }
    (fsOf [txtFile "a.txt" "x"]) (mkFileInfo "b" "" (txtNode "a.txt" "x")) (by decide)

/-- C3 (confirmed): the classifier looks only at the first 1024 bytes,
returns false on a failing read or a null byte in the sample and true
otherwise; deleting every null-containing file from the tree leaves any
scan result unchanged, so such files yield no record. -/
theorem c3_text_classifier :
    (∀ f : FileNode, is_text_file f = (!f.classifyFails && !((f.bytes.take 1024).contains 0)))
    ∧ (∀ f g : FileNode, f.classifyFails = g.classifyFails →
        f.bytes.take 1024 = g.bytes.take 1024 → is_text_file f = is_text_file g)
    ∧ (∀ f : FileNode, f.classifyFails = true → is_text_file f = false)
    ∧ (∀ f : FileNode, (f.bytes.take 1024).contains 0 = true → is_text_file f = false)
    ∧ (∀ (base : String) (cfg : ScanConfig) (root : FSList),
        scan_directory base cfg (pruneNullFiles root) = scan_directory base cfg root) := by
  refine ⟨?_, ?_, ?_, ?_, fun base cfg root => scan_prune base cfg root⟩
  · intro f
    unfold is_text_file
    rcases h : f.classifyFails with _ | _ <;> simp [h]
  · intro f g h1 h2
    unfold is_text_file
    rw [h1, h2]
  · intro f h
    unfold is_text_file
    rw [h]
    rfl
  · intro f h
    unfold is_text_file
    have hm : (0 : Nat) ∈ f.bytes.take 1024 := by simpa using h
    rcases hcf : f.classifyFails with _ | _ <;> simp [hcf, hm]

/-- C3 (witness): a file with a null byte in its sample is not text. -/
theorem c3_witness : is_text_file binNode = false :=
  c3_text_classifier.2.2.2.1 binNode (by decide)

/-- C4 (counterexample): `lines` is `len(content.splitlines())`, which
also counts non-newline boundaries: a scanned file with content
`"a\x0bb"` (a vertical tab) reports 2 lines although it has a single
newline-delimited segment. -/
theorem c4_counterexample :
    (scan_directory "b" cfg0 (fsOf [txtFile "v.txt" "a\x0bb"])).map (fun r => r.lines) = [2]
    ∧ newlineSegments "a\x0bb" = 1 := by
  decide

/-- C4 (amended): `lineCount` is `len(content.splitlines())`; on content
whose only line-boundary characters are `\n` this equals the number of
newline-delimited segments, the empty content gives 0, a missing final
newline still counts its last segment, and every scanned record's
`lines` field is exactly this count of its `content`. -/
theorem c4_amended :
    (∀ cs : List Char, (∀ c ∈ cs, isLineBreak c = true → c = '\n') →
        splitlinesLenChars cs = newlineSegmentsChars cs)
    ∧ pySplitlinesLen "" = 0
    ∧ pySplitlinesLen "a\nb" = 2
    ∧ (∀ (base : String) (cfg : ScanConfig) (root : FSList) (r : FileInfo),
        r ∈ scan_directory base cfg root → r.lines = pySplitlinesLen r.content) := by
  refine ⟨fun cs h => splitlines_eq_newlineSegments cs h, by decide, by decide, ?_⟩
  intro base cfg root r hr
  obtain ⟨relDir, f, rfl, _, _⟩ := scanHit_shape (mem_scan_iff.1 hr)
  exact mkFileInfo_lines base relDir f

/-- C4 (witness): the amended equality at `"a\nb"`. -/
theorem c4_witness : splitlinesLenChars "a\nb".data = newlineSegmentsChars "a\nb".data :=
  c4_amended.1 "a\nb".data (by decide)

/-- C5 (counterexample): read literally, the claimed format gives every
section a trailing blank line; the code joins sections with a single
newline, so the final section ends after the content's newline with no
blank line — on one record the two strings differ. -/
theorem c5_counterexample :
    create_file_content_string [⟨"e", "2", 7, 1⟩] "T" ≠ claimDumpText [⟨"e", "2", 7, 1⟩] "T"
    ∧ create_file_content_string [⟨"e", "2", 7, 1⟩] "T"
      = "T\n\n" ++ sepLine ++ "File: e (1 lines, 7 bytes)\n" ++ sepLine ++ "2\n"
    ∧ claimDumpText [⟨"e", "2", 7, 1⟩] "T"
      = "T\n\n" ++ sepLine ++ "File: e (1 lines, 7 bytes)\n" ++ sepLine ++ "2\n\n" := by
  refine ⟨by decide, by decide, by decide⟩

/-- C5 (amended): the dump is the tree, a blank line, then one section
per record in input order (separator of 48 `=`, header, separator, raw
content, newline) joined by single newlines — i.e. exactly the claimed
text minus one trailing newline whenever at least one record exists
(each non-final section is followed by a blank line; the last is not). -/
theorem c5_amended :
    (∀ (files : List FileInfo) (tree : String),
        create_file_content_string files tree
          = tree ++ "\n\n" ++ pyJoin "\n" (files.map fileSection))
    ∧ (∀ f : FileInfo, fileSection f
        = sepLine ++ "File: " ++ f.path ++ " (" ++ toString f.lines ++ " lines, "
            ++ toString f.size ++ " bytes)\n" ++ sepLine ++ f.content ++ "\n")
    ∧ sepLine = String.mk (List.replicate 48 '=') ++ "\n"
    ∧ (∀ (files : List FileInfo) (tree : String),
        claimDumpText files tree
          = create_file_content_string files tree ++ (if files.isEmpty then "" else "\n")) :=
  ⟨fun _ _ => rfl, fun _ => rfl, rfl, claimDump_vs_code⟩

/-- C6 (confirmed): the renderer sorts each listing by code point with
`.git` removed, renders the last entry with `└── ` and the others with
`├── `, extends the prefix with `│   ` (not last) or four spaces (last),
and prefixes the header line; `["b.txt", "a.txt", "Z"]` renders as
Z, a.txt, b.txt. -/
theorem c6_tree_rendering :
    create_directory_tree fsZab = "Directory structure:\n├── Z\n├── a.txt\n└── b.txt"
    ∧ create_directory_tree fsNested = "Directory structure:\n├── d\n│   └── x\n└── e"
    ∧ create_directory_tree fsNestedLast = "Directory structure:\n├── a\n└── d\n    └── x"
    ∧ (∀ (fuel : Nat) (pre : String) (entries : List FSEntry),
        buildLinesF (fuel + 1) pre entries
          = renderLevel (buildLinesF fuel) pre
              (sortByName (entries.filter (fun e => e.name ≠ ".git"))))
    ∧ (∀ l : List FSEntry, List.Sorted nameLe (sortByName l))
    ∧ (∀ l : List FSEntry, (sortByName l).Perm l)
    ∧ (∀ (rec' : String → List FSEntry → List String) (pre : String) (e : FSEntry),
        renderEntryWith rec' pre true e
          = (pre ++ "└── " ++ e.name) :: subtreeLines rec' (pre ++ "    ") e)
    ∧ (∀ (rec' : String → List FSEntry → List String) (pre : String) (e : FSEntry),
        renderEntryWith rec' pre false e
          = (pre ++ "├── " ++ e.name) :: subtreeLines rec' (pre ++ "│   ") e)
    ∧ (∀ (rec' : String → List FSEntry → List String) (newPre n : String) (es : FSList),
        subtreeLines rec' newPre (FSEntry.dir n es) = rec' newPre es.toList)
    ∧ (∀ root : FSList, create_directory_tree root
        = "Directory structure:\n" ++ pyJoin "\n" (build_directory_tree_lines root)) :=
  ⟨by decide, by decide, by decide, fun _ _ _ => rfl, sorted_sortByName, perm_sortByName,
    fun _ _ _ => rfl, fun _ _ _ => rfl, fun _ _ _ _ => rfl, fun _ => rfl⟩

/-- C7 (confirmed): a permission-denied directory renders as exactly one
`[Permission Denied]` line under the current prefix with no descent
(the subtree renderer `rec'` is not consulted), contributes no records
to the walk or to its parent's file list, and the rest of the render and
scan continue — shown also on a concrete tree. -/
theorem c7_permission_denied :
    (∀ (rec' : String → List FSEntry → List String) (newPre n : String),
        subtreeLines rec' newPre (FSEntry.denied n) = [newPre ++ "[Permission Denied]"])
    ∧ (∀ (cfg : ScanConfig) (base rel n : String) (rest : FSList),
        walkDirs cfg base rel (FSList.cons (FSEntry.denied n) rest) = walkDirs cfg base rel rest)
    ∧ (∀ (cfg : ScanConfig) (base rel n : String) (rest : FSList),
        recsOfDir cfg base rel (FSList.cons (FSEntry.denied n) rest) = recsOfDir cfg base rel rest)
    ∧ create_directory_tree fsDenied
      = "Directory structure:\n├── sub\n│   ├── locked\n│   │   [Permission Denied]\n│   └── ok.txt\n└── top.md"
    ∧ scan_directory "b" cfg0 fsDenied
      = [mkFileInfo "b" "" (txtNode "top.md" "m"), mkFileInfo "b" "sub" (txtNode "ok.txt" "y\n")] :=
  ⟨fun _ _ _ => rfl, fun _ _ _ _ _ => rfl, fun _ _ _ _ _ => rfl, by decide, by decide⟩

/-- C8 (counterexample): `read_file_content` itself never raises, but the
scanner calls `os.path.getsize` immediately after it with no enclosing
`try`: for an accepted file that disappeared between discovery and
content-read the size lookup raises `FileNotFoundError`, the whole walk
aborts, and no record at all is produced — not even for the healthy
sibling file — refuting "the scan still produces a FileRecord … never
aborts the whole extraction". -/
theorem c8_counterexample :
    acceptFile cfg0 "" vanishedNode = true
    ∧ vanishedNode.readFails = true
    ∧ scan_directory_exc "b" cfg0 (fsOf [FSEntry.file vanishedNode, txtFile "a.txt" "x"])
        = Except.error "[Errno 2] No such file or directory: b/lost.txt" :=
  ⟨by decide, rfl, rfl⟩

/-- C8 (amended): the content-read never raises and yields the
placeholder `"Error reading file <path>: <error>"`; whenever every
accepted file is still stat-able (`os.path.getsize` succeeds — e.g. the
file became unreadable but still exists), the fallible scanner returns
exactly the total scan's records, so a read failure changes no record's
path, every affected record carries the placeholder as its content, and
nothing aborts; only a file that vanishes before the unprotected
`os.path.getsize` call aborts the extraction (the counterexample). -/
theorem c8_amended :
    (∀ (filePath : String) (f : FileNode), f.readFails = true →
        read_file_content filePath f = "Error reading file " ++ filePath ++ ": " ++ f.errMsg)
    ∧ (∀ (base : String) (cfg : ScanConfig) (root : FSList), noSizeFails root = true →
        scan_directory_exc base cfg root = Except.ok (scan_directory base cfg root))
    ∧ (∀ root : FSList, noSizeFails (setReadFailsAll root) = noSizeFails root)
    ∧ (∀ (base : String) (cfg : ScanConfig) (root : FSList),
        (scan_directory base cfg (setReadFailsAll root)).map (fun r => r.path)
          = (scan_directory base cfg root).map (fun r => r.path))
    ∧ (∀ (base : String) (cfg : ScanConfig) (root : FSList) (r : FileInfo),
        r ∈ scan_directory base cfg (setReadFailsAll root) →
        ∃ p m, r.content = "Error reading file " ++ p ++ ": " ++ m)
    ∧ scan_directory_exc "b" cfg0 (fsOf [FSEntry.file goneNode])
        = Except.ok [⟨"gone.txt", "Error reading file b/gone.txt: No such file", 5, 1⟩] := by
  refine ⟨?_, scanExc_eq_scan, noSizeFails_setRF, scan_setRF_paths, ?_, rfl⟩
  · intro p f h
    simp [read_file_content, h]
  · intro base cfg root r hr
    exact scanHit_setRF_content (mem_scan_iff.1 hr) root rfl

/-- C8 (witness): the amended no-abort guarantee at a concrete scan
containing an unreadable-but-present file. -/
theorem c8_witness :
    scan_directory_exc "b" cfg0 (fsOf [FSEntry.file goneNode, txtFile "a.txt" "x"])
      = Except.ok (scan_directory "b" cfg0 (fsOf [FSEntry.file goneNode, txtFile "a.txt" "x"])) :=
  c8_amended.2.1 "b" cfg0 (fsOf [FSEntry.file goneNode, txtFile "a.txt" "x"]) (by decide)

/-- C9 (counterexample): a text, unhidden file matching no exclude
pattern that is nevertheless absent — its parent directory `build` is
pruned, so `build/a.txt` never appears even though the path itself
matches no exclude pattern and `includePatterns` is empty. -/
theorem c9_counterexample :
    should_exclude "build/a.txt" ["build"] = false
    ∧ should_include "build/a.txt" [] = true
    ∧ is_text_file (txtNode "a.txt" "hi") = true
    ∧ startsWithDot "a.txt" = false
    ∧ scan_directory "b"
        { excludePatterns := ["build"], includePatterns := [], verbose := false, ignoreHidden := false }
        fsBuild = [] := by
  decide

/-- C9 (amended): with no include patterns the inclusion check is true
for every path (otherwise it is true exactly when some include pattern
matches), and every text, non-excluded, non-hidden-suppressed file
whose chain of ancestor directories is kept (not hidden-pruned, not
excluded, listable — the `ScanHit` derivation) is present; in
particular a root-level such file always yields its record. -/
theorem c9_amended :
    (∀ relPath : String, should_include relPath [] = true)
    ∧ (∀ (relPath q : String) (qs : List String),
        should_include relPath (q :: qs) = true ↔ ∃ p ∈ q :: qs, fnmatchcase relPath p = true)
    ∧ (∀ (cfg : ScanConfig) (base rel : String) (l : FSList) (r : FileInfo),
        ScanHit cfg base rel l r → r ∈ scanAt cfg base rel l)
    ∧ (∀ (cfg : ScanConfig) (base : String) (root : FSList) (f : FileNode),
        cfg.includePatterns = [] →
        FSEntry.file f ∈ root.toList →
        (cfg.ignoreHidden = true → startsWithDot f.name = false) →
        should_exclude f.name cfg.excludePatterns = false →
        is_text_file f = true →
        mkFileInfo base "" f ∈ scan_directory base cfg root) := by
  refine ⟨fun _ => rfl, ?_, fun _ _ _ _ _ h => scanHit_mem h, ?_⟩
  · intro relPath q qs
    exact List.any_eq_true
  · intro cfg base root f hinc hmem hh hex hit
    have hj : joinRel "" f.name = f.name := by simp [joinRel]
    have ha : acceptFile cfg "" f = true := by
      unfold acceptFile
      rw [hj, hex, hinc, hit]
      rfl
    exact scanHit_mem (ScanHit.file hmem hh ha)

/-- C9 (witness): default inclusion at a concrete root-level file. -/
theorem c9_witness :
    mkFileInfo "b" "" (txtNode "a.txt" "x") ∈ scan_directory "b" cfg0 (fsOf [txtFile "a.txt" "x"]) :=
  c9_amended.2.2.2 cfg0 "b" (fsOf [txtFile "a.txt" "x"]) (txtNode "a.txt" "x")
    rfl (List.mem_cons_self _ _) (by decide) (by decide) (by decide)

/-- C10 (confirmed): `*` matches across `/` in both filters: `*.md`
matches the nested path `docs/notes.md`, and a single-segment exclude
pattern removes `.md` files at depths one, two and three of a scan that
otherwise reports all of them. -/
theorem c10_star_crosses_separators :
    fnmatchcase "docs/notes.md" "*.md" = true
    ∧ should_exclude "docs/notes.md" ["*.md"] = true
    ∧ should_include "docs/notes.md" ["*.md"] = true
    ∧ scan_directory "b"
        { excludePatterns := ["*.md"], includePatterns := [], verbose := false, ignoreHidden := false }
        fsDepths = []
    ∧ (scan_directory "b" cfg0 fsDepths).map (fun r => r.path) = ["top.md", "d1/a.md", "d1/d2/b.md"] := by
  decide
